import Mathlib

/-!
Shallow embedding of the Minesweeper-style game engine from `src/main.go`
("black holes" = mines).  Go slices become `List`, Go `int` becomes `Int`,
and every Go expression that can panic (slice indexing out of range) is
modelled with `Option`, where `none` represents the panic.  The `int8`
adjacency counter is modelled as `Int`: its value never leaves `[0, 8]`
in the source, so no wrap-around can occur.
-/

set_option maxHeartbeats 1000000
set_option maxRecDepth 100000

namespace Game

/-- Mirrors Go struct `playCellPos` (`src/main.go:88`). -/
structure playCellPos where
  width : Int
  height : Int
deriving DecidableEq, Repr

/-- Mirrors Go struct `playCell` (`src/main.go:93`). -/
structure playCell where
  IsVisible : Bool := false
  IsBlackHole : Bool := false
  IsMarked : Bool := false
  IsExploded : Bool := false
  AdjucentBlackHoleQuantity : Int := 0
deriving DecidableEq, Repr

/-- Mirrors Go struct `playField` (`src/main.go:101`). -/
structure playField where
  Width : Int
  Height : Int
  BlackHoleQuantity : Int
  Cells : List playCell
deriving DecidableEq, Repr

/-- Go slice read `l[i]` with an `int` index: `none` models the
    index-out-of-range panic. -/
def intGet? (l : List playCell) (i : Int) : Option playCell :=
  if 0 ≤ i then l[i.toNat]? else none

/-- The cell stored at coordinates `(x, y)`, at flat index `y*Width + x`
    (the `rowBias + width` scheme used throughout `src/main.go`). -/
def cellAtPos (f : playField) (x y : Int) : Option playCell :=
  intGet? f.Cells (y * f.Width + x)

def visAt (f : playField) (x y : Int) : Bool :=
  ((cellAtPos f x y).map (·.IsVisible)).getD false

def mineAt (f : playField) (x y : Int) : Bool :=
  ((cellAtPos f x y).map (·.IsBlackHole)).getD false

def markedAt (f : playField) (x y : Int) : Bool :=
  ((cellAtPos f x y).map (·.IsMarked)).getD false

def explodedAt (f : playField) (x y : Int) : Bool :=
  ((cellAtPos f x y).map (·.IsExploded)).getD false

def countAt (f : playField) (x y : Int) : Int :=
  ((cellAtPos f x y).map (·.AdjucentBlackHoleQuantity)).getD 0

/-- `(x, y)` is a coordinate pair inside the grid rectangle. -/
def inBoundsPos (f : playField) (x y : Int) : Prop :=
  0 ≤ x ∧ x < f.Width ∧ 0 ≤ y ∧ y < f.Height

instance (f : playField) (x y : Int) : Decidable (inBoundsPos f x y) := by
  unfold inBoundsPos; infer_instance

/-- The structural invariant `NewPlayField` (`src/main.go:109`) establishes:
    positive dimensions and a cell slice of length `Width * Height`. -/
def wellFormed (f : playField) : Prop :=
  0 < f.Width ∧ 0 < f.Height ∧ (f.Cells.length : Int) = f.Width * f.Height

instance (f : playField) : Decidable (wellFormed f) := by
  unfold wellFormed; infer_instance

/-- All in-bounds positions, in the iteration order of the source's nested
    loops: `height` outer ascending, `width` inner ascending. -/
def allPositions (f : playField) : List playCellPos :=
  ((List.range f.Height.toNat).map
    (fun (h : Nat) => (List.range f.Width.toNat).map
      (fun (w : Nat) => playCellPos.mk w h))).flatten

/-- Mirrors `updateFieldCell` (`src/main.go:242`): mark or reveal one cell.
    `none` models the panic on an out-of-range flat index. -/
def updateFieldCell (f : playField) (width height : Int) (marked : Bool) :
    Option playField :=
  let rowBias := height * f.Width
  match intGet? f.Cells (rowBias + width) with
  | none => none
  | some currentCell =>
    let newCell := if marked then { currentCell with IsMarked := true }
                   else { currentCell with IsVisible := true }
    some { f with Cells := f.Cells.set (rowBias + width).toNat newCell }

/-- Mirrors the loss branch of `main` (`src/main.go:62`–`72`): the nested
    "force total visibility" loops.  Faithfully, BOTH loop bounds are
    `field.Width` (the source uses `playField.Width` for the outer,
    row, loop as well). -/
def forceTotalVisibility (f : playField) : Option playField :=
  (List.range f.Width.toNat).foldlM
    (fun acc h =>
      (List.range f.Width.toNat).foldlM
        (fun acc2 w => updateFieldCell acc2 (w : Int) (h : Int) false)
        acc)
    f

/-- Mirrors `checkFieldBlackHole` (`src/main.go:253`): true iff the cell is
    visible and a mine; sets `IsExploded` as its only side effect. -/
def checkFieldBlackHole (f : playField) (width height : Int) :
    Option (Bool × playField) :=
  let rowBias := height * f.Width
  match intGet? f.Cells (rowBias + width) with
  | none => none
  | some currentCell =>
    if currentCell.IsVisible && currentCell.IsBlackHole then
      let newCell := { currentCell with IsExploded := true }
      some (true, { f with Cells := f.Cells.set (rowBias + width).toNat newCell })
    else
      some (false, f)

/-- One cell blocks the win exactly when it is a non-mine that is either
    hidden or marked (`src/main.go:318`). -/
def blocksWin (c : playCell) : Bool :=
  !c.IsBlackHole && (!c.IsVisible || c.IsMarked)

def checkWinAux (f : playField) : List playCellPos → Option Bool
  | [] => some true
  | p :: rest =>
    match intGet? f.Cells (p.height * f.Width + p.width) with
    | none => none
    | some c => if blocksWin c then some false else checkWinAux f rest

/-- Mirrors `checkWinResult` (`src/main.go:314`): scans all cells in row
    order, failing on the first non-mine cell that is hidden or marked. -/
def checkWinResult (f : playField) : Option Bool :=
  checkWinAux f (allPositions f)

/-- Outcome of the `addBlackHoles` loop (`src/main.go:141`), run against an
    explicit stream of random draws (the successive `rand.Intn(fieldSize)`
    results).  `outOfDraws` means the stream ended with the loop still
    running — a finite prefix of a non-terminating (or longer) execution.
    `indexPanic` models an out-of-range draw (impossible for real
    `rand.Intn(fieldSize)` on a well-formed field); `budgetPanic` models
    the `panic` call on line 154. -/
inductive HolesResult where
  | ok (f : playField)
  | outOfDraws (f : playField) (attempts blackHoles : Nat)
  | indexPanic (f : playField)
  | budgetPanic (f : playField)
deriving DecidableEq, Repr

/-- Mirrors the loop body of `addBlackHoles` (`src/main.go:146`–`157`).
    Note the source increments `attempts` in the SUCCESS branch (just after
    placing a hole), not in the collision branch.  The loop guard and the
    budget check compare the counters against `field.BlackHoleQuantity`
    exactly as written. -/
def addBlackHolesLoop (f : playField) (attempts blackHoles : Nat) :
    List Nat → HolesResult
  | [] =>
    if (blackHoles : Int) < f.BlackHoleQuantity then
      .outOfDraws f attempts blackHoles
    else .ok f
  | blackHolePos :: rest =>
    if (blackHoles : Int) < f.BlackHoleQuantity then
      match f.Cells[blackHolePos]? with
      | none => .indexPanic f
      | some c =>
        if !c.IsBlackHole then
          let newCell := { c with IsBlackHole := true }
          addBlackHolesLoop { f with Cells := f.Cells.set blackHolePos newCell }
            (attempts + 1) (blackHoles + 1) rest
        else if (attempts : Int) ≥ f.BlackHoleQuantity * 100 then
          .budgetPanic f
        else
          addBlackHolesLoop f attempts blackHoles rest
    else .ok f

/-- `addBlackHoles` (`src/main.go:141`) starts both counters at zero. -/
def addBlackHoles (f : playField) (draws : List Nat) : HolesResult :=
  addBlackHolesLoop f 0 0 draws

/-- A guarded neighbor read of `addAdjacentBlackHoles`: when the bounds
    guard holds, read `Cells[idx].IsBlackHole` (panic on bad index
    modelled by `none`); when it fails, Go's `&&` short-circuits and the
    cell contributes nothing. -/
def guardedMine (f : playField) (guard : Bool) (idx : Int) : Option Bool :=
  if guard then (intGet? f.Cells idx).map (·.IsBlackHole) else some false

def boolToInt (b : Bool) : Int := if b then 1 else 0

/-- The body of the `addAdjacentBlackHoles` nested loops
    (`src/main.go:164`–`198`) for one cell: the eight guarded neighbor
    checks, each incrementing `AdjucentBlackHoleQuantity`. -/
def addAdjacentForCell (f : playField) (width height : Int) : Option playField :=
  let rowBias := height * f.Width
  let currentPos := rowBias + width
  match intGet? f.Cells currentPos with
  | none => none
  | some currentCell => do
    let l ← guardedMine f (decide (width > 0)) (currentPos - 1)
    let r ← guardedMine f (decide (width < f.Width - 1)) (currentPos + 1)
    let u ← guardedMine f (decide (height > 0)) (currentPos - f.Width)
    let d ← guardedMine f (decide (height < f.Height - 1)) (currentPos + f.Width)
    let lu ← guardedMine f (decide (width > 0 ∧ height > 0)) (currentPos - f.Width - 1)
    let ld ← guardedMine f (decide (width > 0 ∧ height < f.Height - 1)) (currentPos + f.Width - 1)
    let ru ← guardedMine f (decide (width < f.Width - 1 ∧ height > 0)) (currentPos - f.Width + 1)
    let rd ← guardedMine f (decide (width < f.Width - 1 ∧ height < f.Height - 1)) (currentPos + f.Width + 1)
    let inc := boolToInt l + boolToInt r + boolToInt u + boolToInt d +
      boolToInt lu + boolToInt ld + boolToInt ru + boolToInt rd
    let newCell := { currentCell with
      AdjucentBlackHoleQuantity := currentCell.AdjucentBlackHoleQuantity + inc }
    some { f with Cells := f.Cells.set currentPos.toNat newCell }

/-- Mirrors `addAdjacentBlackHoles` (`src/main.go:161`): visit every cell
    in row order and add its adjacent-mine count. -/
def addAdjacentBlackHoles (f : playField) : Option playField :=
  (allPositions f).foldlM (fun acc p => addAdjacentForCell acc p.width p.height) f

/-- The exact number of in-bounds neighbors (8-connectivity) of `(x, y)`
    that contain a mine. -/
def mineNeighborCount (f : playField) (x y : Int) : Int :=
  boolToInt (decide (inBoundsPos f (x-1) y) && mineAt f (x-1) y) +
  boolToInt (decide (inBoundsPos f (x+1) y) && mineAt f (x+1) y) +
  boolToInt (decide (inBoundsPos f x (y-1)) && mineAt f x (y-1)) +
  boolToInt (decide (inBoundsPos f x (y+1)) && mineAt f x (y+1)) +
  boolToInt (decide (inBoundsPos f (x-1) (y-1)) && mineAt f (x-1) (y-1)) +
  boolToInt (decide (inBoundsPos f (x-1) (y+1)) && mineAt f (x-1) (y+1)) +
  boolToInt (decide (inBoundsPos f (x+1) (y-1)) && mineAt f (x+1) (y-1)) +
  boolToInt (decide (inBoundsPos f (x+1) (y+1)) && mineAt f (x+1) (y+1))

/-- Outcome of `updateFieldVisibility`: the updated field together with the
    visited set (Go passes the map by reference, so the final contents are
    observable), `panic` for an out-of-range index, `fuelOut` when the
    modelling fuel is exhausted (never reached in-bounds, see the
    termination theorem). -/
inductive VisResult where
  | ok (f : playField) (prev : List playCellPos)
  | oobPanic
  | fuelOut
deriving DecidableEq, Repr

def VisResult.andThen (r : VisResult)
    (k : playField → List playCellPos → VisResult) : VisResult :=
  match r with
  | .ok f prev => k f prev
  | .oobPanic => .oobPanic
  | .fuelOut => .fuelOut

/-- The neighbor reveal `field.Cells[idx].IsVisible = true`, where `c` is
    the cell previously read at `idx`. -/
def setVisibleAt (f : playField) (idx : Int) (c : playCell) : playField :=
  { f with Cells := f.Cells.set idx.toNat { c with IsVisible := true } }

/-- One direction block of `updateFieldVisibility` (e.g. lines 275–282):
    if the bounds guard holds and the neighbor (at flat index `nIdx`,
    coordinates `(nx, ny)`) is not a mine, make it visible, and if it is
    not in the visited set, insert it and recurse (`go`). -/
def visitNeighbor (go : playField → Int → Int → List playCellPos → VisResult)
    (f : playField) (guard : Bool) (nIdx nx ny : Int)
    (prev : List playCellPos) : VisResult :=
  if guard then
    match intGet? f.Cells nIdx with
    | none => .oobPanic
    | some ncell =>
      if ncell.IsBlackHole then .ok f prev
      else
        let f' := setVisibleAt f nIdx ncell
        let p := playCellPos.mk nx ny
        if p ∈ prev then .ok f' prev
        else go f' nx ny (p :: prev)
  else .ok f prev

/-- Mirrors `updateFieldVisibility` (`src/main.go:268`), with explicit fuel
    standing in for Go's unbounded recursion: read the current cell (panic
    on bad index), and when its adjacency count is zero run the four
    direction blocks in source order (Left, Right, Up, Down), threading the
    field and the shared visited set through them. -/
def updateFieldVisibility : Nat → playField → Int → Int → List playCellPos → VisResult
  | 0, _, _, _, _ => .fuelOut
  | Nat.succ fuel, f, width, height, prev =>
    let currentPos := height * f.Width + width
    match intGet? f.Cells currentPos with
    | none => .oobPanic
    | some currentCell =>
      if currentCell.AdjucentBlackHoleQuantity = 0 then
        (visitNeighbor (updateFieldVisibility fuel) f
            (decide (width > 0)) (currentPos - 1) (width - 1) height prev).andThen
          (fun f1 prev1 =>
        (visitNeighbor (updateFieldVisibility fuel) f1
            (decide (width < f.Width - 1)) (currentPos + 1) (width + 1) height prev1).andThen
          (fun f2 prev2 =>
        (visitNeighbor (updateFieldVisibility fuel) f2
            (decide (height > 0)) (currentPos - f.Width) width (height - 1) prev2).andThen
          (fun f3 prev3 =>
        visitNeighbor (updateFieldVisibility fuel) f3
            (decide (height < f.Height - 1)) (currentPos + f.Width) width (height + 1) prev3)))
      else .ok f prev

/-- The distinct error exits of `parseUserCommand` (`src/main.go:327`),
    one constructor per `return`-with-error site. -/
inductive ParseError where
  | notEnoughArguments
  | widthNotInt (s : String)
  | widthOutOfRange (w : Int)
  | heightNotInt (s : String)
  | heightOutOfRange (h : Int)
  | badMarkToken (s : String)
  | tooManyArguments
deriving DecidableEq, Repr

/-- Go `unicode.IsSpace` restricted to ASCII, the characters relevant to
    `strings.TrimSpace` / `strings.Fields` here. -/
def goIsSpace (c : Char) : Bool :=
  c = ' ' || c = '\t' || c = '\n' || c = '\x0b' || c = '\x0c' || c = '\r'

/-- `strings.TrimSpace`: drop leading and trailing whitespace. -/
def goTrimSpace (s : String) : String :=
  String.mk (((s.data.dropWhile goIsSpace).reverse.dropWhile goIsSpace).reverse)

def goFieldsAux : List Char → List Char → List String
  | [], acc => if acc = [] then [] else [String.mk acc.reverse]
  | c :: cs, acc =>
    if goIsSpace c then
      if acc = [] then goFieldsAux cs []
      else String.mk acc.reverse :: goFieldsAux cs []
    else goFieldsAux cs (c :: acc)

/-- `strings.Fields`: split around runs of whitespace. -/
def goFields (s : String) : List String :=
  goFieldsAux s.data []

/-- `strconv.Atoi`: optional sign followed by at least one decimal digit.
    Modelled over unbounded `Int` (the source's 64-bit overflow error is
    out of scope for the inputs considered here). -/
def goAtoi (s : String) : Option Int :=
  match s.data with
  | [] => none
  | c :: rest =>
    let neg : Bool := c = '-'
    let digits : List Char := if c = '-' || c = '+' then rest else c :: rest
    if digits ≠ [] ∧ digits.all Char.isDigit then
      let n : Int := digits.foldl (fun acc d => acc * 10 + ((d.toNat : Int) - ('0'.toNat : Int))) 0
      some (if neg then -n else n)
    else none

/-- Mirrors `parseUserCommand` (`src/main.go:327`): trim, split into
    fields, then dispatch on the number of arguments exactly as the source
    does (the `< 2`, `== 2 || == 3`, and fall-through cases). -/
def parseUserCommand (f : playField) (commandParameters : String) :
    Except ParseError (Int × Int × Bool) :=
  let trimmedCommandParameters := goTrimSpace commandParameters
  let commandArguments := goFields trimmedCommandParameters
  let commandArgumentsLen := commandArguments.length
  if commandArgumentsLen < 2 then .error .notEnoughArguments
  else if commandArgumentsLen = 2 ∨ commandArgumentsLen = 3 then
    match commandArguments with
    | a0 :: a1 :: rest =>
      match goAtoi a0 with
      | none => .error (.widthNotInt a0)
      | some width =>
        if width ≥ f.Width then .error (.widthOutOfRange width)
        else
          match goAtoi a1 with
          | none => .error (.heightNotInt a1)
          | some height =>
            if height ≥ f.Height then .error (.heightOutOfRange height)
            else
              match rest with
              | [] => .ok (width, height, false)
              | a2 :: _ =>
                if a2 = "true" || a2 = "1" then .ok (width, height, true)
                else if a2 = "false" || a2 = "0" then .ok (width, height, false)
                else .error (.badMarkToken a2)
    | _ => .error .notEnoughArguments
  else .error .tooManyArguments

/-- Number of cells currently holding a mine. -/
def countBlackHoles (f : playField) : Nat :=
  (f.Cells.filter (·.IsBlackHole)).length

def HolesResult.isBudgetPanicked : HolesResult → Bool
  | .budgetPanic _ => true
  | _ => false

/-! ### Concrete fixture grids -/

/-- A valid 1-wide, 2-tall grid (height exceeds width). -/
def fieldTall : playField :=
  { Width := 1, Height := 2, BlackHoleQuantity := 1, Cells := List.replicate 2 {} }

/-- A valid 2-wide, 1-tall grid (width exceeds height). -/
def fieldWide : playField :=
  { Width := 2, Height := 1, BlackHoleQuantity := 1, Cells := List.replicate 2 {} }

/-- A fresh 1×2 grid configured for two mines. -/
def fieldTiny : playField :=
  { Width := 1, Height := 2, BlackHoleQuantity := 2, Cells := List.replicate 2 {} }

/-- `fieldTiny` after one successful placement at index 0. -/
def fieldTinyMined : playField :=
  { Width := 1, Height := 2, BlackHoleQuantity := 2,
    Cells := [{ IsBlackHole := true }, {}] }

/-- An 8×8 grid with the default mine quantity. -/
def field8x8 : playField :=
  { Width := 8, Height := 8, BlackHoleQuantity := 10, Cells := List.replicate 64 {} }

/-! ### Flat-index geometry -/

theorem flatIdx_bounds (f : playField) (hwf : wellFormed f) {x y : Int}
    (hin : inBoundsPos f x y) :
    0 ≤ y * f.Width + x ∧ y * f.Width + x < (f.Cells.length : Int) := by
  obtain ⟨hW, hH, hlen⟩ := hwf
  obtain ⟨hx0, hxW, hy0, hyH⟩ := hin
  constructor
  · have h1 : 0 ≤ y * f.Width := mul_nonneg hy0 hW.le
    linarith
  · rw [hlen]
    have h1 : y * f.Width ≤ (f.Height - 1) * f.Width :=
      mul_le_mul_of_nonneg_right (by omega) hW.le
    have h2 : (f.Height - 1) * f.Width = f.Width * f.Height - f.Width := by ring
    linarith

theorem flatIdx_inj (f : playField) {x y x' y' : Int}
    (hin : inBoundsPos f x y) (hin' : inBoundsPos f x' y')
    (heq : y * f.Width + x = y' * f.Width + x') : x = x' ∧ y = y' := by
  obtain ⟨hx0, hxW, hy0, hyH⟩ := hin
  obtain ⟨hx0', hxW', hy0', hyH'⟩ := hin'
  have hW : 0 < f.Width := by omega
  rcases lt_trichotomy y y' with h | h | h
  · exfalso
    have h1 : (y + 1) * f.Width ≤ y' * f.Width :=
      mul_le_mul_of_nonneg_right (by omega) hW.le
    have h2 : (y + 1) * f.Width = y * f.Width + f.Width := by ring
    linarith
  · subst h
    constructor
    · linarith
    · rfl
  · exfalso
    have h1 : (y' + 1) * f.Width ≤ y * f.Width :=
      mul_le_mul_of_nonneg_right (by omega) hW.le
    have h2 : (y' + 1) * f.Width = y' * f.Width + f.Width := by ring
    linarith

theorem cellAtPos_isSome (f : playField) (hwf : wellFormed f) {x y : Int}
    (hin : inBoundsPos f x y) : ∃ c, cellAtPos f x y = some c := by
  obtain ⟨h0, hlt⟩ := flatIdx_bounds f hwf hin
  have hnat : (y * f.Width + x).toNat < f.Cells.length := by omega
  refine ⟨f.Cells[(y * f.Width + x).toNat], ?_⟩
  simp [cellAtPos, intGet?, h0, List.getElem?_eq_getElem hnat]

theorem mem_allPositions (f : playField) (p : playCellPos) :
    p ∈ allPositions f ↔ inBoundsPos f p.width p.height := by
  obtain ⟨x, y⟩ := p
  unfold allPositions inBoundsPos
  rw [List.mem_flatten]
  constructor
  · rintro ⟨row, hrow, hx⟩
    rw [List.mem_map] at hrow
    obtain ⟨h, hh, rfl⟩ := hrow
    rw [List.mem_range] at hh
    rw [List.mem_map] at hx
    obtain ⟨w, hw, heq⟩ := hx
    rw [List.mem_range] at hw
    cases heq
    dsimp only
    omega
  · rintro ⟨hx0, hxW, hy0, hyH⟩
    have hx0' : 0 ≤ x := hx0
    have hxW' : x < f.Width := hxW
    have hy0' : 0 ≤ y := hy0
    have hyH' : y < f.Height := hyH
    refine ⟨(List.range f.Width.toNat).map (fun (w : Nat) => playCellPos.mk w y.toNat), ?_, ?_⟩
    · rw [List.mem_map]
      exact ⟨y.toNat, List.mem_range.mpr (by omega), rfl⟩
    · rw [List.mem_map]
      refine ⟨x.toNat, List.mem_range.mpr (by omega), ?_⟩
      rw [Int.toNat_of_nonneg hx0, Int.toNat_of_nonneg hy0]

/-! ### C1 and C2: the loss-branch full-grid reveal -/

/-- C1: the claim says that after the loss branch every in-bounds cell is
    visible, for every grid.  The source iterates BOTH loss-reveal loops up
    to `field.Width` (`src/main.go:64`–`65`), so on a 1×2 grid the cell
    (0, 1) — in bounds, since height is 2 — is never revealed: the loop
    completes and leaves it invisible. -/
theorem lossReveal_misses_row :
    wellFormed fieldTall ∧ inBoundsPos fieldTall 0 1 ∧
    (forceTotalVisibility fieldTall).map (fun f => visAt f 0 1) = some false := by
  decide

/-- C2: the claim says the loss-branch loop never indexes out of range for
    any valid grid, including non-square ones.  On a 2×1 grid the outer
    loop runs `h = 0, 1` (bounded by `Width`, not `Height`), and at
    `h = 1, w = 0` the flat index `1*2+0 = 2` is outside the 2-cell slice:
    the run panics (modelled by `none`). -/
theorem lossReveal_indexes_out_of_range :
    wellFormed fieldWide ∧ forceTotalVisibility fieldWide = none := by
  decide

/-! ### C3: the mine-placement retry budget -/

/-- The `attempts` counter is incremented only when a hole is successfully
    placed (`src/main.go:152`), so it always equals `blackHoles`, which the
    loop guard keeps below `BlackHoleQuantity ≤ BlackHoleQuantity * 100`:
    the budget `panic` on line 154 can never execute. -/
theorem addBlackHolesLoop_budget_never (draws : List Nat) :
    ∀ f a, (addBlackHolesLoop f a a draws).isBudgetPanicked = false := by
  induction draws with
  | nil =>
    intro f a
    unfold addBlackHolesLoop
    split <;> rfl
  | cons pos rest ih =>
    intro f a
    unfold addBlackHolesLoop
    split
    · rename_i hlt
      cases hcell : f.Cells[pos]? with
    | none => rfl
    | some c =>
      cases hbh : c.IsBlackHole with
      | false =>
        simp only [hbh, Bool.not_false, if_true]
        exact ih _ (a + 1)
      | true =>
        simp only [hbh, Bool.not_true, Bool.false_eq_true, if_false]
        rw [if_neg (by omega)]
        exact ih f a
    · rfl

/-- C3: for no grid and no random stream does `addBlackHoles` reach the
    budget `panic` — the abort the claim describes is unreachable — and the
    concrete fresh 1×2 grid with quantity 2 survives 200 straight
    collisions (= quantity × 100) after its first placement with the loop
    still spinning (`outOfDraws`), `attempts` stuck at 1. -/
theorem addBlackHoles_budget_unreachable :
    (∀ (f : playField) (draws : List Nat),
      (addBlackHoles f draws).isBudgetPanicked = false) ∧
    addBlackHoles fieldTiny (0 :: List.replicate 200 0) =
      .outOfDraws fieldTinyMined 1 1 := by
  constructor
  · intro f draws
    exact addBlackHolesLoop_budget_never draws f 0
  · decide

/-! ### C10: placement count -/

theorem length_filter_set_true (l : List playCell) (pos : Nat) (c : playCell)
    (hc : l[pos]? = some c) (hbh : c.IsBlackHole = false) :
    ((l.set pos { c with IsBlackHole := true }).filter (·.IsBlackHole)).length =
      (l.filter (·.IsBlackHole)).length + 1 := by
  induction l generalizing pos with
  | nil => simp at hc
  | cons x xs ih =>
    cases pos with
    | zero =>
      rw [List.getElem?_cons_zero] at hc
      obtain rfl : x = c := by injection hc
      simp [List.filter_cons, hbh]
    | succ n =>
      rw [List.getElem?_cons_succ] at hc
      simp only [List.set]
      rw [List.filter_cons, List.filter_cons]
      cases hpx : x.IsBlackHole with
      | false => simpa using ih n hc
      | true => simpa using ih n hc

theorem countBlackHoles_set (f : playField) (pos : Nat) (c : playCell)
    (hc : f.Cells[pos]? = some c) (hbh : c.IsBlackHole = false) :
    countBlackHoles { f with Cells := f.Cells.set pos { c with IsBlackHole := true } } =
      countBlackHoles f + 1 :=
  length_filter_set_true f.Cells pos c hc hbh

theorem mines_mono_set (l : List playCell) (pos : Nat) (c : playCell)
    (hc : l[pos]? = some c) (i : Nat)
    (hi : l[i]?.map (·.IsBlackHole) = some true) :
    ((l.set pos { c with IsBlackHole := true })[i]?).map (·.IsBlackHole) = some true := by
  rcases eq_or_ne pos i with h | h
  · subst h
    have hlt : pos < l.length := by
      rcases List.getElem?_eq_some.mp hc with ⟨hl, _⟩
      exact hl
    rw [List.getElem?_set_self hlt]
    rfl
  · rw [List.getElem?_set_ne h]
    exact hi

theorem addBlackHolesLoop_ok_spec (draws : List Nat) :
    ∀ f a b f', addBlackHolesLoop f a b draws = .ok f' →
      ((countBlackHoles f' : Int) + b = countBlackHoles f + max (b : Int) f.BlackHoleQuantity) ∧
      f'.BlackHoleQuantity = f.BlackHoleQuantity ∧
      (∀ i : Nat, f.Cells[i]?.map (·.IsBlackHole) = some true →
        f'.Cells[i]?.map (·.IsBlackHole) = some true) := by
  induction draws with
  | nil =>
    intro f a b f' hok
    unfold addBlackHolesLoop at hok
    split at hok
    · cases hok
    · rename_i hge
      cases hok
      refine ⟨by omega, rfl, fun i hi => hi⟩
  | cons pos rest ih =>
    intro f a b f' hok
    unfold addBlackHolesLoop at hok
    split at hok
    · rename_i hlt
      cases hcell : f.Cells[pos]? with
      | none => rw [hcell] at hok; cases hok
      | some c =>
        rw [hcell] at hok
        dsimp only at hok
        cases hbh : c.IsBlackHole with
        | false =>
          rw [hbh] at hok
          simp only [Bool.not_false, if_true] at hok
          obtain ⟨h1, h2, h5⟩ := ih _ _ _ _ hok
          rw [countBlackHoles_set f pos c hcell hbh] at h1
          dsimp only at h1 h2
          refine ⟨by omega, h2, ?_⟩
          intro i hi
          exact h5 i (mines_mono_set f.Cells pos c hcell i hi)
        | true =>
          rw [hbh] at hok
          simp only [Bool.not_true, Bool.false_eq_true, if_false] at hok
          split at hok
          · cases hok
          · exact ih _ _ _ _ hok
    · rename_i hge
      cases hok
      refine ⟨by omega, rfl, fun i hi => hi⟩

/-- C10: on a fresh grid (no mines yet), whenever the placement loop
    terminates normally it has set `IsBlackHole` on exactly
    `BlackHoleQuantity` distinct cells (each counted once in
    `countBlackHoles`), never more or fewer, and every already-mined cell
    stays mined (a selected cell is never re-set or cleared). -/
theorem addBlackHoles_exact_count (f : playField) (draws : List Nat) (f' : playField)
    (hfresh : countBlackHoles f = 0)
    (hok : addBlackHoles f draws = .ok f') :
    countBlackHoles f' = f.BlackHoleQuantity.toNat ∧
    (∀ i : Nat, f.Cells[i]?.map (·.IsBlackHole) = some true →
      f'.Cells[i]?.map (·.IsBlackHole) = some true) := by
  obtain ⟨h1, h2, h5⟩ := addBlackHolesLoop_ok_spec draws f 0 0 f' hok
  exact ⟨by omega, h5⟩

/-- `fieldTiny` after both cells are mined. -/
def fieldTinyBoth : playField :=
  { Width := 1, Height := 2, BlackHoleQuantity := 2,
    Cells := [{ IsBlackHole := true }, { IsBlackHole := true }] }

/-- Witness for C10 at a concrete input: the fresh 1×2 grid with
    quantity 2 and draw stream [0, 1]. -/
theorem addBlackHoles_exact_count_witness :
    countBlackHoles fieldTiny = 0 ∧
    addBlackHoles fieldTiny [0, 1] = .ok fieldTinyBoth ∧
    countBlackHoles fieldTinyBoth = fieldTiny.BlackHoleQuantity.toNat :=
  ⟨by decide, by decide,
    (addBlackHoles_exact_count fieldTiny [0, 1] fieldTinyBoth (by decide) (by decide)).1⟩

/-! ### Reading and writing cells at positions -/

theorem visAt_eq_of (f : playField) {x y : Int} {c : playCell}
    (hc : cellAtPos f x y = some c) : visAt f x y = c.IsVisible := by
  unfold visAt
  rw [hc]
  rfl

theorem mineAt_eq_of (f : playField) {x y : Int} {c : playCell}
    (hc : cellAtPos f x y = some c) : mineAt f x y = c.IsBlackHole := by
  unfold mineAt
  rw [hc]
  rfl

theorem markedAt_eq_of (f : playField) {x y : Int} {c : playCell}
    (hc : cellAtPos f x y = some c) : markedAt f x y = c.IsMarked := by
  unfold markedAt
  rw [hc]
  rfl

theorem countAt_eq_of (f : playField) {x y : Int} {c : playCell}
    (hc : cellAtPos f x y = some c) : countAt f x y = c.AdjucentBlackHoleQuantity := by
  unfold countAt
  rw [hc]
  rfl

theorem set_getElem?_self (l : List playCell) (n : Nat) (a : playCell)
    (h : l[n]? = some a) : l.set n a = l := by
  apply List.ext_getElem?
  intro i
  rcases eq_or_ne n i with rfl | hne
  · rw [List.getElem?_set_self (List.getElem?_eq_some.mp h).1]
    exact h.symm
  · rw [List.getElem?_set_ne hne]

theorem cellAtPos_set_eq (f : playField) (idx : Int) (a : playCell)
    (h0 : 0 ≤ idx) (hlt : idx.toNat < f.Cells.length) {x y : Int}
    (hpos : y * f.Width + x = idx) :
    cellAtPos { f with Cells := f.Cells.set idx.toNat a } x y = some a := by
  unfold cellAtPos intGet?
  dsimp only
  rw [hpos, if_pos h0, List.getElem?_set_self hlt]

theorem cellAtPos_set_ne (f : playField) (idx : Int) (a : playCell)
    (h0 : 0 ≤ idx) {x y : Int} (hpos : y * f.Width + x ≠ idx) :
    cellAtPos { f with Cells := f.Cells.set idx.toNat a } x y = cellAtPos f x y := by
  unfold cellAtPos intGet?
  dsimp only
  by_cases hp : 0 ≤ y * f.Width + x
  · rw [if_pos hp, if_pos hp, List.getElem?_set_ne (by omega)]
  · rw [if_neg hp, if_neg hp]

/-! ### C8: the detonation check -/

theorem checkFieldBlackHole_eq (f : playField) (x y : Int) (c : playCell)
    (hc : cellAtPos f x y = some c) :
    checkFieldBlackHole f x y =
      if c.IsVisible && c.IsBlackHole then
        some (true, { f with Cells := f.Cells.set (y * f.Width + x).toNat { c with IsExploded := true } })
      else some (false, f) := by
  unfold checkFieldBlackHole
  dsimp only
  rw [show intGet? f.Cells (y * f.Width + x) = some c from hc]

/-- C8: at an in-bounds position, `checkFieldBlackHole` returns exactly
    the conjunction "visible and mine"; when false it mutates nothing;
    when true its only mutation is setting `IsExploded` on that cell, and
    re-checking the already-exploded cell returns true again with no
    further change. -/
theorem checkFieldBlackHole_spec (f : playField) (x y : Int)
    (hwf : wellFormed f) (hin : inBoundsPos f x y) :
    ∃ b f', checkFieldBlackHole f x y = some (b, f') ∧
      b = (visAt f x y && mineAt f x y) ∧
      (b = false → f' = f) ∧
      (b = true →
        (∀ x' y', inBoundsPos f x' y' → ¬(x' = x ∧ y' = y) →
          cellAtPos f' x' y' = cellAtPos f x' y') ∧
        cellAtPos f' x y = (cellAtPos f x y).map (fun c => { c with IsExploded := true }) ∧
        checkFieldBlackHole f' x y = some (true, f')) := by
  obtain ⟨c, hc⟩ := cellAtPos_isSome f hwf hin
  obtain ⟨h0, hltI⟩ := flatIdx_bounds f hwf hin
  have hlt : (y * f.Width + x).toNat < f.Cells.length := by omega
  rw [visAt_eq_of f hc, mineAt_eq_of f hc]
  rw [checkFieldBlackHole_eq f x y c hc]
  cases hcond : c.IsVisible && c.IsBlackHole with
  | false =>
    rw [if_neg (by simp [hcond])]
    exact ⟨false, f, rfl, rfl, fun _ => rfl, fun h => Bool.noConfusion h⟩
  | true =>
    rw [if_pos (by simp [hcond])]
    refine ⟨true, _, rfl, rfl, fun h => Bool.noConfusion h, fun _ => ⟨?_, ?_, ?_⟩⟩
    · intro x' y' hin' hne
      apply cellAtPos_set_ne f _ _ h0
      intro habs
      exact hne (flatIdx_inj f hin' hin habs)
    · rw [cellAtPos_set_eq f _ _ h0 hlt rfl, hc]
      rfl
    · have hcset : cellAtPos { f with Cells := f.Cells.set (y * f.Width + x).toNat { c with IsExploded := true } } x y = some { c with IsExploded := true } :=
        cellAtPos_set_eq f _ _ h0 hlt rfl
      rw [checkFieldBlackHole_eq _ x y _ hcset]
      rw [if_pos (by simp_all)]
      dsimp only
      have hget : (f.Cells.set (y * f.Width + x).toNat { c with IsExploded := true })[(y * f.Width + x).toNat]? = some { c with IsExploded := true } := by
        have := hcset
        unfold cellAtPos intGet? at this
        dsimp only at this
        rw [if_pos h0] at this
        exact this
      have hself : (f.Cells.set (y * f.Width + x).toNat { c with IsExploded := true }).set
          (y * f.Width + x).toNat { c with IsExploded := true } =
          f.Cells.set (y * f.Width + x).toNat { c with IsExploded := true } :=
        set_getElem?_self _ _ _ hget
      rw [hself]

/-- A 1×1 grid whose single cell is a visible mine. -/
def fieldBoom : playField :=
  { Width := 1, Height := 1, BlackHoleQuantity := 1,
    Cells := [{ IsVisible := true, IsBlackHole := true }] }

/-- Witness for C8 at a concrete input. -/
theorem checkFieldBlackHole_spec_witness :
    wellFormed fieldBoom ∧ inBoundsPos fieldBoom 0 0 ∧
    (∃ b f', checkFieldBlackHole fieldBoom 0 0 = some (b, f') ∧
      b = (visAt fieldBoom 0 0 && mineAt fieldBoom 0 0) ∧
      (b = false → f' = fieldBoom) ∧
      (b = true →
        (∀ x' y', inBoundsPos fieldBoom x' y' → ¬(x' = 0 ∧ y' = 0) →
          cellAtPos f' x' y' = cellAtPos fieldBoom x' y') ∧
        cellAtPos f' 0 0 = (cellAtPos fieldBoom 0 0).map (fun c => { c with IsExploded := true }) ∧
        checkFieldBlackHole f' 0 0 = some (true, f'))) :=
  ⟨by decide, by decide, checkFieldBlackHole_spec fieldBoom 0 0 (by decide) (by decide)⟩

/-! ### C7: win detection -/

theorem checkWinAux_spec (f : playField) (l : List playCellPos)
    (hl : ∀ p ∈ l, ∃ c, cellAtPos f p.width p.height = some c) :
    (checkWinAux f l = some true ↔
      ∀ p ∈ l, ∀ c, cellAtPos f p.width p.height = some c → blocksWin c = false) := by
  induction l with
  | nil => simp [checkWinAux]
  | cons p rest ih =>
    obtain ⟨c, hc⟩ := hl p (List.mem_cons_self p rest)
    have hrest := fun q hq => hl q (List.mem_cons_of_mem p hq)
    unfold checkWinAux
    rw [show intGet? f.Cells (p.height * f.Width + p.width) = some c from hc]
    dsimp only
    cases hb : blocksWin c with
    | true =>
      rw [if_pos rfl]
      constructor
      · intro h
        cases h
      · intro h
        have := h p (List.mem_cons_self p rest) c hc
        rw [hb] at this
        cases this
    | false =>
      rw [if_neg (by simp)]
      rw [ih hrest]
      constructor
      · intro h q hq c' hc'
        rcases List.mem_cons.mp hq with rfl | hq'
        · rw [hc] at hc'
          injection hc' with hcc
          rw [← hcc]
          exact hb
        · exact h q hq' c' hc'
      · intro h q hq c' hc'
        exact h q (List.mem_cons_of_mem p hq) c' hc'

/-- C7: `checkWinResult` is `some true` exactly when every in-bounds
    non-mine cell is visible and unmarked; the state of mine cells is
    irrelevant, and a marked-but-unrevealed safe cell forces `some false`
    (it fails the right-hand side). -/
theorem checkWinResult_iff (f : playField) (hwf : wellFormed f) :
    (checkWinResult f = some true ↔
      ∀ x y, inBoundsPos f x y → mineAt f x y = false →
        visAt f x y = true ∧ markedAt f x y = false) := by
  unfold checkWinResult
  rw [checkWinAux_spec f _
    (fun p hp => cellAtPos_isSome f hwf ((mem_allPositions f p).mp hp))]
  constructor
  · intro h x y hin hmine
    obtain ⟨c, hc⟩ := cellAtPos_isSome f hwf hin
    have hbw := h ⟨x, y⟩ ((mem_allPositions f ⟨x, y⟩).mpr hin) c hc
    rw [mineAt_eq_of f hc] at hmine
    rw [visAt_eq_of f hc, markedAt_eq_of f hc]
    unfold blocksWin at hbw
    rw [hmine] at hbw
    revert hbw
    cases c.IsVisible <;> cases c.IsMarked <;> simp
  · intro h p hp c hc
    have hin := (mem_allPositions f p).mp hp
    unfold blocksWin
    cases hm : c.IsBlackHole with
    | true => simp [hm]
    | false =>
      have hvm := h p.width p.height hin (by rw [mineAt_eq_of f hc, hm])
      rw [visAt_eq_of f hc, markedAt_eq_of f hc] at hvm
      rw [hvm.1, hvm.2]
      simp

/-- Witness for C7 at a concrete input (the 1×1 grid whose single cell is
    a mine: there are no non-mine cells, so the game is won). -/
theorem checkWinResult_iff_witness :
    wellFormed fieldBoom ∧
    (checkWinResult fieldBoom = some true ↔
      ∀ x y, inBoundsPos fieldBoom x y → mineAt fieldBoom x y = false →
        visAt fieldBoom x y = true ∧ markedAt fieldBoom x y = false) :=
  ⟨by decide, checkWinResult_iff fieldBoom (by decide)⟩

/-! ### C6: the command parser -/

/-- With three fields whose first two pass the numeric and range checks,
    the parse reduces to the mark-token dispatch of `src/main.go:353`–`362`. -/
theorem parseUserCommand_three (f : playField) (s a0 a1 a2 : String) (w h : Int)
    (hfields : goFields (goTrimSpace s) = [a0, a1, a2])
    (ha0 : goAtoi a0 = some w) (hwlt : w < f.Width)
    (ha1 : goAtoi a1 = some h) (hhlt : h < f.Height) :
    parseUserCommand f s =
      (if a2 = "true" ∨ a2 = "1" then .ok (w, h, true)
       else if a2 = "false" ∨ a2 = "0" then .ok (w, h, false)
       else .error (.badMarkToken a2)) := by
  simp only [parseUserCommand]
  rw [hfields]
  dsimp only [List.length_cons, List.length_nil]
  rw [if_neg (by omega), if_pos (by omega)]
  rw [ha0]
  dsimp only
  rw [if_neg (by omega)]
  rw [ha1]
  dsimp only
  rw [if_neg (by omega)]
  by_cases h2 : a2 = "true" ∨ a2 = "1"
  · rw [if_pos (show (decide (a2 = "true") || decide (a2 = "1")) = true by
        rcases h2 with h2 | h2 <;> simp [h2]), if_pos h2]
  · rw [if_neg (show ¬(decide (a2 = "true") || decide (a2 = "1")) = true by
        push_neg at h2; simp [h2.1, h2.2]), if_neg h2]
    by_cases h3 : a2 = "false" ∨ a2 = "0"
    · rw [if_pos (show (decide (a2 = "false") || decide (a2 = "0")) = true by
          rcases h3 with h3 | h3 <;> simp [h3]), if_pos h3]
    · rw [if_neg (show ¬(decide (a2 = "false") || decide (a2 = "0")) = true by
          push_neg at h3; simp [h3.1, h3.2]), if_neg h3]

/-- C6: the six documented parses on an 8×8 grid come out exactly as the
    spec lists them, and with three whitespace-separated tokens whose
    first two pass the numeric and range checks, parsing succeeds exactly
    when the third token is one of `"true"`, `"1"`, `"false"`, `"0"`. -/
theorem parseUserCommand_cases (f : playField) (hw : f.Width = 8) (hh : f.Height = 8) :
    parseUserCommand f "2 3" = .ok (2, 3, false) ∧
    parseUserCommand f "2 3 true" = .ok (2, 3, true) ∧
    parseUserCommand f "8 3" = .error (.widthOutOfRange 8) ∧
    parseUserCommand f "2" = .error .notEnoughArguments ∧
    parseUserCommand f "2 3 maybe" = .error (.badMarkToken "maybe") ∧
    parseUserCommand f "1 2 3 4" = .error .tooManyArguments ∧
    (∀ (s a0 a1 a2 : String) (w h : Int),
      goFields (goTrimSpace s) = [a0, a1, a2] →
      goAtoi a0 = some w → w < f.Width →
      goAtoi a1 = some h → h < f.Height →
      ((∃ m, parseUserCommand f s = .ok (w, h, m)) ↔
        (a2 = "true" ∨ a2 = "1" ∨ a2 = "false" ∨ a2 = "0"))) := by
  have hred : ∀ t : String, parseUserCommand f t =
      parseUserCommand { Width := 8, Height := 8, BlackHoleQuantity := 0, Cells := [] } t := by
    intro t
    obtain ⟨W, H, q, cells⟩ := f
    dsimp only at hw hh
    subst hw
    subst hh
    rfl
  refine ⟨by rw [hred]; rfl, by rw [hred]; rfl, by rw [hred]; rfl,
    by rw [hred]; rfl, by rw [hred]; rfl, by rw [hred]; rfl, ?_⟩
  intro s a0 a1 a2 w h hfields ha0 hwlt ha1 hhlt
  rw [parseUserCommand_three f s a0 a1 a2 w h hfields ha0 hwlt ha1 hhlt]
  by_cases h2 : a2 = "true" ∨ a2 = "1"
  · rw [if_pos h2]
    simp only [Except.ok.injEq]
    constructor
    · intro _
      tauto
    · intro _
      exact ⟨true, rfl⟩
  · rw [if_neg h2]
    by_cases h3 : a2 = "false" ∨ a2 = "0"
    · rw [if_pos h3]
      simp only [Except.ok.injEq]
      constructor
      · intro _
        tauto
      · intro _
        exact ⟨false, rfl⟩
    · rw [if_neg h3]
      constructor
      · rintro ⟨m, hm⟩
        cases hm
      · intro hcase
        tauto

/-- Witness for C6 at a concrete input: the 8×8 fixture grid, including
    one instantiation of the mark-token clause at the token `"1"`. -/
theorem parseUserCommand_cases_witness :
    field8x8.Width = 8 ∧ field8x8.Height = 8 ∧
    goFields (goTrimSpace "2 3 1") = ["2", "3", "1"] ∧
    goAtoi "2" = some 2 ∧ (2 : Int) < field8x8.Width ∧
    goAtoi "3" = some 3 ∧ (3 : Int) < field8x8.Height ∧
    ((∃ m, parseUserCommand field8x8 "2 3 1" = .ok (2, 3, m)) ↔
      ("1" = "true" ∨ "1" = "1" ∨ "1" = "false" ∨ "1" = "0")) :=
  ⟨rfl, rfl, by decide, by decide, by decide, by decide, by decide,
    ((parseUserCommand_cases field8x8 rfl rfl).2.2.2.2.2.2)
      "2 3 1" "2" "3" "1" 2 3 (by decide) (by decide) (by decide) (by decide) (by decide)⟩

/-! ### C9: adjacency computation -/

/-- `f` agrees with `f0` on dimensions, cell count and mine layout
    (the data `mineNeighborCount` depends on). -/
def sameMines (f0 f : playField) : Prop :=
  f.Width = f0.Width ∧ f.Height = f0.Height ∧ f.Cells.length = f0.Cells.length ∧
  ∀ i : Nat, f.Cells[i]?.map (·.IsBlackHole) = f0.Cells[i]?.map (·.IsBlackHole)

theorem sameMines_refl (f : playField) : sameMines f f :=
  ⟨rfl, rfl, rfl, fun _ => rfl⟩

theorem mineAt_congr {f0 f : playField} (h : sameMines f0 f) (x y : Int) :
    mineAt f x y = mineAt f0 x y := by
  obtain ⟨hW, hH, hlen, hbh⟩ := h
  unfold mineAt cellAtPos intGet?
  rw [hW]
  by_cases hp : 0 ≤ y * f0.Width + x
  · rw [if_pos hp, if_pos hp, hbh (y * f0.Width + x).toNat]
  · rw [if_neg hp, if_neg hp]

theorem inBoundsPos_congr {f0 f : playField} (h : sameMines f0 f) (x y : Int) :
    inBoundsPos f x y ↔ inBoundsPos f0 x y := by
  unfold inBoundsPos
  rw [h.1, h.2.1]

theorem mineNeighborCount_congr {f0 f : playField} (h : sameMines f0 f) (x y : Int) :
    mineNeighborCount f x y = mineNeighborCount f0 x y := by
  unfold mineNeighborCount
  rw [mineAt_congr h, mineAt_congr h, mineAt_congr h, mineAt_congr h,
    mineAt_congr h, mineAt_congr h, mineAt_congr h, mineAt_congr h]
  rw [decide_eq_decide.mpr (inBoundsPos_congr h (x-1) y),
    decide_eq_decide.mpr (inBoundsPos_congr h (x+1) y),
    decide_eq_decide.mpr (inBoundsPos_congr h x (y-1)),
    decide_eq_decide.mpr (inBoundsPos_congr h x (y+1)),
    decide_eq_decide.mpr (inBoundsPos_congr h (x-1) (y-1)),
    decide_eq_decide.mpr (inBoundsPos_congr h (x-1) (y+1)),
    decide_eq_decide.mpr (inBoundsPos_congr h (x+1) (y-1)),
    decide_eq_decide.mpr (inBoundsPos_congr h (x+1) (y+1))]

theorem boolToInt_bounds (b : Bool) : 0 ≤ boolToInt b ∧ boolToInt b ≤ 1 := by
  cases b <;> simp [boolToInt]

theorem mineNeighborCount_bounds (f : playField) (x y : Int) :
    0 ≤ mineNeighborCount f x y ∧ mineNeighborCount f x y ≤ 8 := by
  unfold mineNeighborCount
  obtain ⟨a1, b1⟩ := boolToInt_bounds (decide (inBoundsPos f (x-1) y) && mineAt f (x-1) y)
  obtain ⟨a2, b2⟩ := boolToInt_bounds (decide (inBoundsPos f (x+1) y) && mineAt f (x+1) y)
  obtain ⟨a3, b3⟩ := boolToInt_bounds (decide (inBoundsPos f x (y-1)) && mineAt f x (y-1))
  obtain ⟨a4, b4⟩ := boolToInt_bounds (decide (inBoundsPos f x (y+1)) && mineAt f x (y+1))
  obtain ⟨a5, b5⟩ := boolToInt_bounds (decide (inBoundsPos f (x-1) (y-1)) && mineAt f (x-1) (y-1))
  obtain ⟨a6, b6⟩ := boolToInt_bounds (decide (inBoundsPos f (x-1) (y+1)) && mineAt f (x-1) (y+1))
  obtain ⟨a7, b7⟩ := boolToInt_bounds (decide (inBoundsPos f (x+1) (y-1)) && mineAt f (x+1) (y-1))
  obtain ⟨a8, b8⟩ := boolToInt_bounds (decide (inBoundsPos f (x+1) (y+1)) && mineAt f (x+1) (y+1))
  omega

/-- A guarded read agrees with the in-bounds/mine indicator, provided the
    guard is exactly the neighbor's in-bounds condition and the index is
    the neighbor's flat index. -/
theorem guardedMine_spec (f : playField) (hwf : wellFormed f) (nx ny : Int)
    (g : Bool) (idx : Int) (hg : g = true ↔ inBoundsPos f nx ny)
    (hidx : idx = ny * f.Width + nx) :
    guardedMine f g idx = some (decide (inBoundsPos f nx ny) && mineAt f nx ny) := by
  unfold guardedMine
  cases hgv : g with
  | true =>
    rw [if_pos rfl]
    have hin : inBoundsPos f nx ny := hg.mp hgv
    obtain ⟨c, hc⟩ := cellAtPos_isSome f hwf hin
    have hc' : intGet? f.Cells idx = some c := by rw [hidx]; exact hc
    rw [hc']
    rw [mineAt_eq_of f hc]
    simp [hin]
  | false =>
    rw [if_neg (by simp)]
    have hnin : ¬ inBoundsPos f nx ny := by
      intro hin
      rw [hg.mpr hin] at hgv
      cases hgv
    simp [hnin]

/-- The per-cell body of `addAdjacentBlackHoles`: at an in-bounds cell of
    a well-formed field, the eight guarded checks compute exactly
    `mineNeighborCount`, added onto the cell's current count; every other
    cell and every non-count component is untouched. -/
theorem addAdjacentForCell_spec (f : playField) (hwf : wellFormed f) (x y : Int)
    (hin : inBoundsPos f x y) :
    ∃ f', addAdjacentForCell f x y = some f' ∧
      sameMines f f' ∧
      countAt f' x y = countAt f x y + mineNeighborCount f x y ∧
      (∀ x' y', inBoundsPos f x' y' → ¬(x' = x ∧ y' = y) →
        countAt f' x' y' = countAt f x' y') := by
  obtain ⟨c, hc⟩ := cellAtPos_isSome f hwf hin
  obtain ⟨h0, hltI⟩ := flatIdx_bounds f hwf hin
  have hlt : (y * f.Width + x).toNat < f.Cells.length := by omega
  obtain ⟨hx0, hxW, hy0, hyH⟩ := hin
  unfold addAdjacentForCell
  dsimp only
  rw [show intGet? f.Cells (y * f.Width + x) = some c from hc]
  rw [guardedMine_spec f hwf (x-1) y _ _ (by simp only [decide_eq_true_eq, inBoundsPos]; constructor <;> intro h <;> omega) (by ring)]
  rw [guardedMine_spec f hwf (x+1) y _ _ (by simp only [decide_eq_true_eq, inBoundsPos]; constructor <;> intro h <;> omega) (by ring)]
  rw [guardedMine_spec f hwf x (y-1) _ _ (by simp only [decide_eq_true_eq, inBoundsPos]; constructor <;> intro h <;> omega) (by ring)]
  rw [guardedMine_spec f hwf x (y+1) _ _ (by simp only [decide_eq_true_eq, inBoundsPos]; constructor <;> intro h <;> omega) (by ring)]
  rw [guardedMine_spec f hwf (x-1) (y-1) _ _ (by simp only [decide_eq_true_eq, inBoundsPos]; constructor <;> intro h <;> omega) (by ring)]
  rw [guardedMine_spec f hwf (x-1) (y+1) _ _ (by simp only [decide_eq_true_eq, inBoundsPos]; constructor <;> intro h <;> omega) (by ring)]
  rw [guardedMine_spec f hwf (x+1) (y-1) _ _ (by simp only [decide_eq_true_eq, inBoundsPos]; constructor <;> intro h <;> omega) (by ring)]
  rw [guardedMine_spec f hwf (x+1) (y+1) _ _ (by simp only [decide_eq_true_eq, inBoundsPos]; constructor <;> intro h <;> omega) (by ring)]
  simp only [Option.pure_def, Option.bind_eq_bind, Option.some_bind]
  refine ⟨_, rfl, ⟨rfl, rfl, by simp, ?_⟩, ?_, ?_⟩
  · intro i
    rcases eq_or_ne (y * f.Width + x).toNat i with rfl | hne
    · rw [List.getElem?_set_self hlt]
      have hci : f.Cells[(y * f.Width + x).toNat]? = some c := by
        have := hc
        unfold cellAtPos intGet? at this
        rw [if_pos h0] at this
        exact this
      rw [hci]
      rfl
    · rw [List.getElem?_set_ne hne]
  · rw [countAt_eq_of _ (cellAtPos_set_eq f _ _ h0 hlt rfl), countAt_eq_of f hc]
    unfold mineNeighborCount
    rfl
  · intro x' y' hin' hne
    unfold countAt
    rw [cellAtPos_set_ne f _ _ h0
      (fun habs => hne (flatIdx_inj f hin' ⟨hx0, hxW, hy0, hyH⟩ habs))]

theorem allPositions_nodup (f : playField) : (allPositions f).Nodup := by
  unfold allPositions
  rw [List.nodup_flatten]
  constructor
  · intro l hl
    rw [List.mem_map] at hl
    obtain ⟨h, _, rfl⟩ := hl
    refine List.Nodup.map ?_ (List.nodup_range _)
    intro w1 w2 hww
    have : (w1 : Int) = w2 := congrArg playCellPos.width hww
    omega
  · have hnd : (List.range f.Height.toNat).Nodup := List.nodup_range _
    rw [List.pairwise_map]
    refine hnd.imp ?_
    intro h1 h2 hne p hp1 hp2
    rw [List.mem_map] at hp1 hp2
    obtain ⟨w1, _, rfl⟩ := hp1
    obtain ⟨w2, _, heq⟩ := hp2
    have : (h2 : Int) = h1 := congrArg playCellPos.height heq
    exact hne (by omega)

theorem sameMines_trans {f0 f1 f2 : playField}
    (h1 : sameMines f0 f1) (h2 : sameMines f1 f2) : sameMines f0 f2 :=
  ⟨h2.1.trans h1.1, h2.2.1.trans h1.2.1, h2.2.2.1.trans h1.2.2.1,
    fun i => (h2.2.2.2 i).trans (h1.2.2.2 i)⟩

theorem wellFormed_congr {f0 f : playField} (hwf : wellFormed f0)
    (h : sameMines f0 f) : wellFormed f := by
  obtain ⟨hW, hH, hlen⟩ := hwf
  refine ⟨by rw [h.1]; exact hW, by rw [h.2.1]; exact hH, ?_⟩
  rw [h.1, h.2.1, h.2.2.1]
  exact hlen

theorem addAdjacent_fold_spec (f0 : playField) (hwf : wellFormed f0) :
    ∀ (l : List playCellPos) (f : playField),
      (∀ p ∈ l, inBoundsPos f0 p.width p.height) → l.Nodup →
      sameMines f0 f →
      ∃ f', l.foldlM (fun acc p => addAdjacentForCell acc p.width p.height) f = some f' ∧
        sameMines f0 f' ∧
        (∀ x y, inBoundsPos f0 x y →
          countAt f' x y = countAt f x y +
            (if playCellPos.mk x y ∈ l then mineNeighborCount f0 x y else 0)) := by
  intro l
  induction l with
  | nil =>
    intro f _ _ hsm
    exact ⟨f, rfl, hsm, fun x y _ => by simp⟩
  | cons p rest ih =>
    intro f hin hnd hsm
    have hwf' : wellFormed f := wellFormed_congr hwf hsm
    have hinp : inBoundsPos f p.width p.height :=
      (inBoundsPos_congr hsm p.width p.height).mpr (hin p (List.mem_cons_self p rest))
    obtain ⟨f1, hstep, hsm1, hcnt1, hother1⟩ :=
      addAdjacentForCell_spec f hwf' p.width p.height hinp
    have hsm01 : sameMines f0 f1 := sameMines_trans hsm hsm1
    obtain ⟨f', hfold, hsm', hcnt'⟩ := ih f1
      (fun q hq => hin q (List.mem_cons_of_mem p hq)) hnd.of_cons hsm01
    refine ⟨f', ?_, hsm', ?_⟩
    · rw [List.foldlM_cons, hstep]
      exact hfold
    · intro x y hinxy
      have hxy1 := hcnt' x y hinxy
      rcases eq_or_ne (playCellPos.mk x y) p with rfl | hnep
      · have hnotrest : playCellPos.mk x y ∉ rest := (List.nodup_cons.mp hnd).1
        rw [hxy1, if_neg hnotrest, hcnt1]
        rw [if_pos (List.mem_cons_self _ _)]
        rw [mineNeighborCount_congr hsm]
        ring
      · have hxyne : ¬(x = p.width ∧ y = p.height) := by
          intro ⟨hh1, hh2⟩
          apply hnep
          cases p
          dsimp only at hh1 hh2
          rw [hh1, hh2]
        have hinf : inBoundsPos f x y := (inBoundsPos_congr hsm x y).mpr hinxy
        rw [hxy1, hother1 x y hinf hxyne]
        by_cases hmem : playCellPos.mk x y ∈ rest
        · rw [if_pos hmem, if_pos (List.mem_cons_of_mem p hmem)]
        · rw [if_neg hmem, if_neg ?_]
          intro hmem'
          rcases List.mem_cons.mp hmem' with heq | hmem''
          · exact hnep heq
          · exact hmem hmem''

/-- C9: after `addAdjacentBlackHoles` runs once on a grid whose counters
    are still zero (a freshly mined grid), every in-bounds cell's
    `AdjucentBlackHoleQuantity` equals the exact number of its in-bounds
    8-neighbors that carry a mine, a value between 0 and 8. -/
theorem addAdjacentBlackHoles_spec (f : playField) (hwf : wellFormed f)
    (hzero : ∀ c ∈ f.Cells, c.AdjucentBlackHoleQuantity = 0) :
    ∃ f', addAdjacentBlackHoles f = some f' ∧
      ∀ x y, inBoundsPos f x y →
        countAt f' x y = mineNeighborCount f x y ∧
        0 ≤ mineNeighborCount f x y ∧ mineNeighborCount f x y ≤ 8 := by
  obtain ⟨f', hfold, _, hcnt⟩ := addAdjacent_fold_spec f hwf (allPositions f) f
    (fun p hp => (mem_allPositions f p).mp hp) (allPositions_nodup f) (sameMines_refl f)
  refine ⟨f', hfold, ?_⟩
  intro x y hin
  obtain ⟨c, hc⟩ := cellAtPos_isSome f hwf hin
  have hc0 : countAt f x y = 0 := by
    rw [countAt_eq_of f hc]
    refine hzero c ?_
    have : intGet? f.Cells (y * f.Width + x) = some c := hc
    unfold intGet? at this
    split at this
    · exact List.getElem?_mem this
    · cases this
  have := hcnt x y hin
  rw [if_pos ((mem_allPositions f ⟨x, y⟩).mpr hin)] at this
  rw [this, hc0]
  refine ⟨by ring, mineNeighborCount_bounds f x y⟩

/-- A 2×2 grid with one mine at (0, 0) and zeroed counters. -/
def fieldSquare : playField :=
  { Width := 2, Height := 2, BlackHoleQuantity := 1,
    Cells := [{ IsBlackHole := true }, {}, {}, {}] }

/-- Witness for C9 at a concrete input. -/
theorem addAdjacentBlackHoles_spec_witness :
    wellFormed fieldSquare ∧
    (∀ c ∈ fieldSquare.Cells, c.AdjucentBlackHoleQuantity = 0) ∧
    (∃ f', addAdjacentBlackHoles fieldSquare = some f' ∧
      ∀ x y, inBoundsPos fieldSquare x y →
        countAt f' x y = mineNeighborCount fieldSquare x y ∧
        0 ≤ mineNeighborCount fieldSquare x y ∧ mineNeighborCount fieldSquare x y ≤ 8) :=
  ⟨by decide, by decide, addAdjacentBlackHoles_spec fieldSquare (by decide) (by decide)⟩

/-! ### C4 and C5: the flood reveal -/

/-- `(qx, qy)` is one of the four orthogonal neighbors of `(x, y)`, in the
    order the source visits them: Left, Right, Up, Down. -/
def isOrthNeighbor (x y qx qy : Int) : Prop :=
  (qx = x - 1 ∧ qy = y) ∨ (qx = x + 1 ∧ qy = y) ∨
  (qx = x ∧ qy = y - 1) ∨ (qx = x ∧ qy = y + 1)

/-- The orthogonally-connected zero-adjacency region grown from the start
    cell `(sx, sy)`: the start itself, plus, step by step, every in-bounds
    non-mine zero-count orthogonal neighbor of a zero-count region cell. -/
inductive ZeroRegion (f : playField) (sx sy : Int) : Int → Int → Prop where
  | base : ZeroRegion f sx sy sx sy
  | step {x y qx qy : Int} : ZeroRegion f sx sy x y → countAt f x y = 0 →
      isOrthNeighbor x y qx qy → inBoundsPos f qx qy → mineAt f qx qy = false →
      countAt f qx qy = 0 → ZeroRegion f sx sy qx qy

/-- The cells the traversal from `(sx, sy)` reveals: the in-bounds
    non-mine orthogonal neighbors of zero-count region cells (this is the
    region plus its border, except that the start cell itself belongs to
    it only when it neighbors another region cell). -/
def RevealTarget (f : playField) (sx sy qx qy : Int) : Prop :=
  ∃ x y, ZeroRegion f sx sy x y ∧ countAt f x y = 0 ∧ isOrthNeighbor x y qx qy ∧
    inBoundsPos f qx qy ∧ mineAt f qx qy = false

/-- All four in-bounds non-mine orthogonal neighbors of `(x, y)` are
    visible in `fr` and recorded in the visited set `prevr`. -/
def nbrsRevealed (f0 fr : playField) (prevr : List playCellPos) (x y : Int) : Prop :=
  ∀ qx qy, isOrthNeighbor x y qx qy → inBoundsPos f0 qx qy →
    mineAt f0 qx qy = false →
    visAt fr qx qy = true ∧ playCellPos.mk qx qy ∈ prevr

/-- `f` agrees with `f0` on everything except cell visibility. -/
def sameButVis (f0 f : playField) : Prop :=
  f.Width = f0.Width ∧ f.Height = f0.Height ∧ f.Cells.length = f0.Cells.length ∧
  (∀ i : Nat, f.Cells[i]?.map (·.IsBlackHole) = f0.Cells[i]?.map (·.IsBlackHole)) ∧
  (∀ i : Nat, f.Cells[i]?.map (·.AdjucentBlackHoleQuantity) =
    f0.Cells[i]?.map (·.AdjucentBlackHoleQuantity)) ∧
  (∀ i : Nat, f.Cells[i]?.map (·.IsMarked) = f0.Cells[i]?.map (·.IsMarked)) ∧
  (∀ i : Nat, f.Cells[i]?.map (·.IsExploded) = f0.Cells[i]?.map (·.IsExploded))

theorem sameButVis_sameMines {f0 f : playField} (h : sameButVis f0 f) :
    sameMines f0 f :=
  ⟨h.1, h.2.1, h.2.2.1, h.2.2.2.1⟩

theorem sameButVis_refl (f : playField) : sameButVis f f :=
  ⟨rfl, rfl, rfl, fun _ => rfl, fun _ => rfl, fun _ => rfl, fun _ => rfl⟩

theorem sameButVis_trans {f0 f1 f2 : playField}
    (h1 : sameButVis f0 f1) (h2 : sameButVis f1 f2) : sameButVis f0 f2 :=
  ⟨h2.1.trans h1.1, h2.2.1.trans h1.2.1, h2.2.2.1.trans h1.2.2.1,
    fun i => (h2.2.2.2.1 i).trans (h1.2.2.2.1 i),
    fun i => (h2.2.2.2.2.1 i).trans (h1.2.2.2.2.1 i),
    fun i => (h2.2.2.2.2.2.1 i).trans (h1.2.2.2.2.2.1 i),
    fun i => (h2.2.2.2.2.2.2 i).trans (h1.2.2.2.2.2.2 i)⟩

theorem countAt_congr {f0 f : playField} (h : sameButVis f0 f) (x y : Int) :
    countAt f x y = countAt f0 x y := by
  unfold countAt cellAtPos intGet?
  rw [h.1]
  by_cases hp : 0 ≤ y * f0.Width + x
  · rw [if_pos hp, if_pos hp, h.2.2.2.2.1 (y * f0.Width + x).toNat]
  · rw [if_neg hp, if_neg hp]

theorem markedAt_congr {f0 f : playField} (h : sameButVis f0 f) (x y : Int) :
    markedAt f x y = markedAt f0 x y := by
  unfold markedAt cellAtPos intGet?
  rw [h.1]
  by_cases hp : 0 ≤ y * f0.Width + x
  · rw [if_pos hp, if_pos hp, h.2.2.2.2.2.1 (y * f0.Width + x).toNat]
  · rw [if_neg hp, if_neg hp]

theorem intGet?_some {l : List playCell} {idx : Int} {c : playCell}
    (hc : intGet? l idx = some c) :
    0 ≤ idx ∧ idx.toNat < l.length ∧ l[idx.toNat]? = some c := by
  unfold intGet? at hc
  split at hc
  · exact ⟨by assumption, (List.getElem?_eq_some.mp hc).1, hc⟩
  · cases hc

theorem sameButVis_setVisibleAt (f : playField) (idx : Int) (c : playCell)
    (hc : intGet? f.Cells idx = some c) : sameButVis f (setVisibleAt f idx c) := by
  obtain ⟨h0, hlt, hget⟩ := intGet?_some hc
  refine ⟨rfl, rfl, by simp [setVisibleAt], ?_, ?_, ?_, ?_⟩ <;>
  · intro i
    dsimp only [setVisibleAt]
    rcases eq_or_ne idx.toNat i with rfl | hne
    · rw [List.getElem?_set_self hlt, hget]
      rfl
    · rw [List.getElem?_set_ne hne]

theorem visAt_setVisibleAt_mono (f : playField) (idx : Int) (c : playCell)
    (hc : intGet? f.Cells idx = some c) (x y : Int)
    (hv : visAt f x y = true) : visAt (setVisibleAt f idx c) x y = true := by
  obtain ⟨h0, hlt, hget⟩ := intGet?_some hc
  unfold visAt cellAtPos intGet? at *
  dsimp only [setVisibleAt] at *
  by_cases hp : 0 ≤ y * f.Width + x
  · rw [if_pos hp] at hv ⊢
    rcases eq_or_ne idx.toNat (y * f.Width + x).toNat with heq | hne
    · rw [← heq, List.getElem?_set_self hlt]
      rfl
    · rw [List.getElem?_set_ne hne]
      exact hv
  · rw [if_neg hp] at hv
    cases hv

theorem visAt_setVisibleAt_self (f : playField) (idx : Int) (c : playCell)
    (hc : intGet? f.Cells idx = some c) (x y : Int)
    (hpos : y * f.Width + x = idx) : visAt (setVisibleAt f idx c) x y = true := by
  obtain ⟨h0, hlt, hget⟩ := intGet?_some hc
  unfold visAt cellAtPos intGet?
  dsimp only [setVisibleAt]
  rw [hpos, if_pos h0, List.getElem?_set_self hlt]
  rfl

theorem visAt_setVisibleAt_rev (f : playField) (idx : Int) (c : playCell)
    (hc : intGet? f.Cells idx = some c) (x y : Int)
    (hv : visAt (setVisibleAt f idx c) x y = true) :
    visAt f x y = true ∨ y * f.Width + x = idx := by
  obtain ⟨h0, hlt, hget⟩ := intGet?_some hc
  unfold visAt cellAtPos intGet? at *
  dsimp only [setVisibleAt] at hv
  by_cases hp : 0 ≤ y * f.Width + x
  · rw [if_pos hp] at hv ⊢
    rcases eq_or_ne idx.toNat (y * f.Width + x).toNat with heq | hne
    · right
      omega
    · left
      rw [List.getElem?_set_ne hne] at hv
      exact hv
  · rw [if_neg hp] at hv
    cases hv

theorem length_filter_le_of_imp {α : Type} (l : List α) (p q : α → Bool)
    (h : ∀ a, p a = true → q a = true) :
    (l.filter p).length ≤ (l.filter q).length := by
  induction l with
  | nil => simp
  | cons a t ih =>
    by_cases hpa : p a = true
    · rw [List.filter_cons_of_pos hpa, List.filter_cons_of_pos (h a hpa)]
      simpa using ih
    · rw [List.filter_cons_of_neg hpa]
      by_cases hqa : q a = true
      · rw [List.filter_cons_of_pos hqa]
        exact Nat.le_succ_of_le ih
      · rw [List.filter_cons_of_neg hqa]
        exact ih

theorem length_filter_lt_of_witness {α : Type} (l : List α) (p q : α → Bool)
    (h : ∀ a, p a = true → q a = true) (a : α) (ha : a ∈ l)
    (hqa : q a = true) (hpa : p a = false) :
    (l.filter p).length < (l.filter q).length := by
  induction l with
  | nil => cases ha
  | cons b t ih =>
    rcases List.mem_cons.mp ha with rfl | hat
    · rw [List.filter_cons_of_neg (by rw [hpa]; exact Bool.false_ne_true),
        List.filter_cons_of_pos hqa]
      have := length_filter_le_of_imp t p q h
      simp only [List.length_cons]
      omega
    · by_cases hpb : p b = true
      · rw [List.filter_cons_of_pos hpb, List.filter_cons_of_pos (h b hpb)]
        simp only [List.length_cons]
        have := ih hat
        omega
      · rw [List.filter_cons_of_neg hpb]
        by_cases hqb : q b = true
        · rw [List.filter_cons_of_pos hqb]
          have := ih hat
          simp only [List.length_cons]
          omega
        · rw [List.filter_cons_of_neg hqb]
          exact ih hat

/-- Number of in-bounds positions not yet in the visited set: the
    termination measure of the traversal. -/
def countFree (f : playField) (prev : List playCellPos) : Nat :=
  ((allPositions f).filter (fun p => decide (p ∉ prev))).length

theorem countFree_le_of_subset (f : playField) {prev prev' : List playCellPos}
    (hsub : ∀ p, p ∈ prev → p ∈ prev') : countFree f prev' ≤ countFree f prev := by
  apply length_filter_le_of_imp
  intro a ha
  simp only [decide_eq_true_eq] at ha ⊢
  intro hmem
  exact ha (hsub a hmem)

theorem countFree_lt_insert (f : playField) {prev : List playCellPos} {p : playCellPos}
    (hin : inBoundsPos f p.width p.height) (hnp : p ∉ prev) :
    countFree f (p :: prev) < countFree f prev := by
  apply length_filter_lt_of_witness _ _ _ ?_ p ((mem_allPositions f p).mpr hin)
  · simp only [decide_eq_true_eq]
    exact hnp
  · simp only [decide_eq_false_iff_not, Decidable.not_not]
    exact List.mem_cons_self p prev
  · intro a ha
    simp only [decide_eq_true_eq] at ha ⊢
    intro hmem
    exact ha (List.mem_cons_of_mem p hmem)

/-- Everything one traversal step (or sub-traversal) guarantees, relating
    its input state `(f, prev)` to its output state `(f', prev')`. -/
structure VisPost (f0 : playField) (sx sy : Int) (f : playField)
    (prev : List playCellPos) (f' : playField) (prev' : List playCellPos) : Prop where
  same : sameButVis f0 f'
  visMono : ∀ qx qy, visAt f qx qy = true → visAt f' qx qy = true
  prevMono : ∀ p, p ∈ prev → p ∈ prev'
  prevNew : ∀ p, p ∈ prev' → p ∈ prev ∨ inBoundsPos f0 p.width p.height
  sound : ∀ qx qy, inBoundsPos f0 qx qy → visAt f' qx qy = true →
    visAt f qx qy = true ∨ RevealTarget f0 sx sy qx qy
  handled : ∀ p, p ∈ prev' → p ∉ prev → countAt f0 p.width p.height = 0 →
    nbrsRevealed f0 f' prev' p.width p.height

theorem nbrsRevealed_mono {f0 f1 f2 : playField}
    {prev1 prev2 : List playCellPos} {x y : Int}
    (h : nbrsRevealed f0 f1 prev1 x y)
    (hvis : ∀ qx qy, visAt f1 qx qy = true → visAt f2 qx qy = true)
    (hprev : ∀ p, p ∈ prev1 → p ∈ prev2) : nbrsRevealed f0 f2 prev2 x y := by
  intro qx qy hq hin hm
  obtain ⟨hv, hp⟩ := h qx qy hq hin hm
  exact ⟨hvis qx qy hv, hprev _ hp⟩

theorem VisPost.id_of_same {f0 : playField} {sx sy : Int} {f : playField}
    {prev : List playCellPos} (hsame : sameButVis f0 f) :
    VisPost f0 sx sy f prev f prev where
  same := hsame
  visMono := fun _ _ h => h
  prevMono := fun _ h => h
  prevNew := fun _ h => Or.inl h
  sound := fun _ _ _ h => Or.inl h
  handled := fun _ h h' _ => absurd h h'

theorem VisPost.trans {f0 : playField} {sx sy : Int} {f f1 f2 : playField}
    {prev prev1 prev2 : List playCellPos}
    (h1 : VisPost f0 sx sy f prev f1 prev1)
    (h2 : VisPost f0 sx sy f1 prev1 f2 prev2) :
    VisPost f0 sx sy f prev f2 prev2 where
  same := h2.same
  visMono := fun qx qy h => h2.visMono qx qy (h1.visMono qx qy h)
  prevMono := fun p h => h2.prevMono p (h1.prevMono p h)
  prevNew := fun p h => by
    rcases h2.prevNew p h with h' | h'
    · exact h1.prevNew p h'
    · exact Or.inr h'
  sound := fun qx qy hin h => by
    rcases h2.sound qx qy hin h with h' | h'
    · exact h1.sound qx qy hin h'
    · exact Or.inr h'
  handled := fun p hp hnp hc => by
    by_cases hp1 : p ∈ prev1
    · exact nbrsRevealed_mono (h1.handled p hp1 hnp hc) h2.visMono h2.prevMono
    · exact h2.handled p hp hp1 hc

/-- What one direction block of the traversal guarantees, assuming the
    induction hypothesis `IH` for the recursive call at the next fuel
    level: the block completes, satisfies `VisPost`, and leaves the
    stepped neighbor (when in bounds and not a mine) visible and in the
    visited set. -/
theorem visitNeighbor_spec (f0 : playField) (sx sy : Int) (hwf : wellFormed f0)
    (fuel : Nat)
    (IH : ∀ (f : playField) (x y : Int) (prev : List playCellPos),
      sameButVis f0 f → inBoundsPos f0 x y →
      (ZeroRegion f0 sx sy x y ∨ countAt f0 x y ≠ 0) →
      countFree f0 prev < fuel →
      ∃ f' prev', updateFieldVisibility fuel f x y prev = .ok f' prev' ∧
        VisPost f0 sx sy f prev f' prev' ∧
        (countAt f0 x y = 0 → nbrsRevealed f0 f' prev' x y))
    (f : playField) (hsame : sameButVis f0 f)
    (x y : Int) (hreg : ZeroRegion f0 sx sy x y) (hc0 : countAt f0 x y = 0)
    (nx ny : Int) (hnbr : isOrthNeighbor x y nx ny)
    (g : Bool) (hg : g = true ↔ inBoundsPos f0 nx ny)
    (idx : Int) (hidx : idx = ny * f0.Width + nx)
    (prev : List playCellPos) (hfuel : countFree f0 prev ≤ fuel) :
    ∃ f' prev',
      visitNeighbor (updateFieldVisibility fuel) f g idx nx ny prev = .ok f' prev' ∧
      VisPost f0 sx sy f prev f' prev' ∧
      (inBoundsPos f0 nx ny → mineAt f0 nx ny = false →
        visAt f' nx ny = true ∧ playCellPos.mk nx ny ∈ prev') := by
  cases hgv : g with
  | false =>
    refine ⟨f, prev, ?_, VisPost.id_of_same hsame, ?_⟩
    · unfold visitNeighbor
      rw [if_neg (by simp)]
    · intro hin _
      rw [hgv] at hg
      exact absurd (hg.mpr hin) (by simp)
  | true =>
    have hinN : inBoundsPos f0 nx ny := hg.mp hgv
    have hsm := sameButVis_sameMines hsame
    have hwff : wellFormed f := wellFormed_congr hwf hsm
    have hinNf : inBoundsPos f nx ny := (inBoundsPos_congr hsm nx ny).mpr hinN
    obtain ⟨ncell, hncell⟩ := cellAtPos_isSome f hwff hinNf
    have hidxf : idx = ny * f.Width + nx := by rw [hsm.1]; exact hidx
    have hread : intGet? f.Cells idx = some ncell := by
      rw [hidxf]; exact hncell
    have hmineN : mineAt f0 nx ny = ncell.IsBlackHole := by
      rw [← mineAt_congr hsm nx ny, mineAt_eq_of f hncell]
    unfold visitNeighbor
    rw [if_pos rfl, hread]
    dsimp only
    cases hbh : ncell.IsBlackHole with
    | true =>
      rw [if_pos rfl]
      refine ⟨f, prev, rfl, VisPost.id_of_same hsame, ?_⟩
      intro _ hm
      rw [hmineN, hbh] at hm
      cases hm
    | false =>
      rw [if_neg (by simp)]
      have hsamev : sameButVis f0 (setVisibleAt f idx ncell) :=
        sameButVis_trans hsame (sameButVis_setVisibleAt f idx ncell hread)
      have hvisSelf : visAt (setVisibleAt f idx ncell) nx ny = true :=
        visAt_setVisibleAt_self f idx ncell hread nx ny hidxf.symm
      have hmineN' : mineAt f0 nx ny = false := by rw [hmineN, hbh]
      have hRT : RevealTarget f0 sx sy nx ny := ⟨x, y, hreg, hc0, hnbr, hinN, hmineN'⟩
      have hsound1 : ∀ qx qy, inBoundsPos f0 qx qy →
          visAt (setVisibleAt f idx ncell) qx qy = true →
          visAt f qx qy = true ∨ RevealTarget f0 sx sy qx qy := by
        intro qx qy hinq hv
        rcases visAt_setVisibleAt_rev f idx ncell hread qx qy hv with hv' | hidxq
        · exact Or.inl hv'
        · have heq : qy * f0.Width + qx = ny * f0.Width + nx := by
            rw [← hsm.1, hidxq]
            exact hidxf
          obtain ⟨hq1, hq2⟩ := flatIdx_inj f0 hinq hinN heq
          subst hq1
          subst hq2
          exact Or.inr hRT
      by_cases hpmem : playCellPos.mk nx ny ∈ prev
      · rw [if_pos hpmem]
        refine ⟨setVisibleAt f idx ncell, prev, rfl, ?_, ?_⟩
        · exact {
            same := hsamev
            visMono := fun qx qy h => visAt_setVisibleAt_mono f idx ncell hread qx qy h
            prevMono := fun _ h => h
            prevNew := fun _ h => Or.inl h
            sound := hsound1
            handled := fun p hp hnp _ => absurd hp hnp }
        · intro _ _
          exact ⟨hvisSelf, hpmem⟩
      · rw [if_neg hpmem]
        have hregN : ZeroRegion f0 sx sy nx ny ∨ countAt f0 nx ny ≠ 0 := by
          by_cases hcN : countAt f0 nx ny = 0
          · exact Or.inl (ZeroRegion.step hreg hc0 hnbr hinN hmineN' hcN)
          · exact Or.inr hcN
        have hfuel' : countFree f0 (playCellPos.mk nx ny :: prev) < fuel := by
          have h1 : countFree f0 (playCellPos.mk nx ny :: prev) < countFree f0 prev :=
            countFree_lt_insert f0 hinN hpmem
          omega
        obtain ⟨f', prev', hrun, hpost, hb⟩ :=
          IH (setVisibleAt f idx ncell) nx ny (playCellPos.mk nx ny :: prev)
            hsamev hinN hregN hfuel'
        refine ⟨f', prev', hrun, ?_, ?_⟩
        · exact {
            same := hpost.same
            visMono := fun qx qy h => hpost.visMono qx qy
              (visAt_setVisibleAt_mono f idx ncell hread qx qy h)
            prevMono := fun p h => hpost.prevMono p (List.mem_cons_of_mem _ h)
            prevNew := fun p h => by
              rcases hpost.prevNew p h with h' | h'
              · rcases List.mem_cons.mp h' with rfl | h''
                · exact Or.inr hinN
                · exact Or.inl h''
              · exact Or.inr h'
            sound := fun qx qy hinq h => by
              rcases hpost.sound qx qy hinq h with h' | h'
              · exact hsound1 qx qy hinq h'
              · exact Or.inr h'
            handled := fun p hp hnp hcp => by
              rcases eq_or_ne p (playCellPos.mk nx ny) with rfl | hne
              · exact hb hcp
              · have hnp' : p ∉ playCellPos.mk nx ny :: prev := by
                  intro hmem
                  rcases List.mem_cons.mp hmem with h' | h'
                  · exact hne h'
                  · exact hnp h'
                exact hpost.handled p hp hnp' hcp }
        · intro _ _
          exact ⟨hpost.visMono nx ny hvisSelf,
            hpost.prevMono _ (List.mem_cons_self _ _)⟩

/-- The master invariant of `updateFieldVisibility`: with enough fuel
    (more than the number of unvisited in-bounds positions), starting
    in bounds at a cell that is either in the zero region or has a
    non-zero count, the traversal completes and satisfies `VisPost`;
    when the current count is zero its four in-bounds non-mine neighbors
    end up visible and visited. -/
theorem updateFieldVisibility_spec (f0 : playField) (sx sy : Int) (hwf : wellFormed f0) :
    ∀ (fuel : Nat) (f : playField) (x y : Int) (prev : List playCellPos),
      sameButVis f0 f → inBoundsPos f0 x y →
      (ZeroRegion f0 sx sy x y ∨ countAt f0 x y ≠ 0) →
      countFree f0 prev < fuel →
      ∃ f' prev', updateFieldVisibility fuel f x y prev = .ok f' prev' ∧
        VisPost f0 sx sy f prev f' prev' ∧
        (countAt f0 x y = 0 → nbrsRevealed f0 f' prev' x y) := by
  intro fuel
  induction fuel with
  | zero =>
    intro f x y prev _ _ _ hfuel
    exact absurd hfuel (by omega)
  | succ fuel ih =>
    intro f x y prev hsame hin hreg hfuel
    have hsm := sameButVis_sameMines hsame
    have hwff : wellFormed f := wellFormed_congr hwf hsm
    have hinf : inBoundsPos f x y := (inBoundsPos_congr hsm x y).mpr hin
    obtain ⟨c, hc⟩ := cellAtPos_isSome f hwff hinf
    have hcc : countAt f0 x y = c.AdjucentBlackHoleQuantity := by
      rw [← countAt_congr hsame x y, countAt_eq_of f hc]
    have hin4 : 0 ≤ x ∧ x < f0.Width ∧ 0 ≤ y ∧ y < f0.Height := hin
    have hW := hsm.1
    have hH := hsm.2.1
    unfold updateFieldVisibility
    dsimp only
    rw [show intGet? f.Cells (y * f.Width + x) = some c from hc]
    dsimp only
    by_cases hc0 : c.AdjucentBlackHoleQuantity = 0
    · rw [if_pos hc0]
      have hc0' : countAt f0 x y = 0 := hcc.trans hc0
      have hregz : ZeroRegion f0 sx sy x y := by
        rcases hreg with h | h
        · exact h
        · exact absurd hc0' h
      obtain ⟨f1, prev1, hr1, hp1, hn1⟩ :=
        visitNeighbor_spec f0 sx sy hwf fuel ih f hsame x y hregz hc0'
          (x - 1) y (Or.inl ⟨rfl, rfl⟩)
          (decide (x > 0))
          (by simp only [decide_eq_true_eq]; unfold inBoundsPos; constructor <;> intro h <;> omega)
          (y * f.Width + x - 1) (by rw [hW]; ring)
          prev (by omega)
      rw [hr1]
      dsimp only [VisResult.andThen]
      obtain ⟨f2, prev2, hr2, hp2, hn2⟩ :=
        visitNeighbor_spec f0 sx sy hwf fuel ih f1 hp1.same x y hregz hc0'
          (x + 1) y (Or.inr (Or.inl ⟨rfl, rfl⟩))
          (decide (x < f.Width - 1))
          (by simp only [decide_eq_true_eq]; unfold inBoundsPos; constructor <;> intro h <;> omega)
          (y * f.Width + x + 1) (by rw [hW]; ring)
          prev1 (le_trans (countFree_le_of_subset f0 hp1.prevMono) (by omega))
      rw [hr2]
      dsimp only [VisResult.andThen]
      obtain ⟨f3, prev3, hr3, hp3, hn3⟩ :=
        visitNeighbor_spec f0 sx sy hwf fuel ih f2 hp2.same x y hregz hc0'
          x (y - 1) (Or.inr (Or.inr (Or.inl ⟨rfl, rfl⟩)))
          (decide (y > 0))
          (by simp only [decide_eq_true_eq]; unfold inBoundsPos; constructor <;> intro h <;> omega)
          (y * f.Width + x - f.Width) (by rw [hW]; ring)
          prev2 (le_trans (countFree_le_of_subset f0
            (fun p hp => hp2.prevMono p (hp1.prevMono p hp))) (by omega))
      rw [hr3]
      dsimp only [VisResult.andThen]
      obtain ⟨f4, prev4, hr4, hp4, hn4⟩ :=
        visitNeighbor_spec f0 sx sy hwf fuel ih f3 hp3.same x y hregz hc0'
          x (y + 1) (Or.inr (Or.inr (Or.inr ⟨rfl, rfl⟩)))
          (decide (y < f.Height - 1))
          (by simp only [decide_eq_true_eq]; unfold inBoundsPos; constructor <;> intro h <;> omega)
          (y * f.Width + x + f.Width) (by rw [hW]; ring)
          prev3 (le_trans (countFree_le_of_subset f0
            (fun p hp => hp3.prevMono p (hp2.prevMono p (hp1.prevMono p hp)))) (by omega))
      rw [hr4]
      refine ⟨f4, prev4, rfl, (hp1.trans (hp2.trans (hp3.trans hp4))), ?_⟩
      intro _
      intro qx qy hq hinq hmq
      rcases hq with ⟨rfl, rfl⟩ | ⟨rfl, rfl⟩ | ⟨rfl, rfl⟩ | ⟨rfl, rfl⟩
      · obtain ⟨hv, hm⟩ := hn1 hinq hmq
        exact ⟨hp4.visMono _ _ (hp3.visMono _ _ (hp2.visMono _ _ hv)),
          hp4.prevMono _ (hp3.prevMono _ (hp2.prevMono _ hm))⟩
      · obtain ⟨hv, hm⟩ := hn2 hinq hmq
        exact ⟨hp4.visMono _ _ (hp3.visMono _ _ hv),
          hp4.prevMono _ (hp3.prevMono _ hm)⟩
      · obtain ⟨hv, hm⟩ := hn3 hinq hmq
        exact ⟨hp4.visMono _ _ hv, hp4.prevMono _ hm⟩
      · exact hn4 hinq hmq
    · rw [if_neg hc0]
      refine ⟨f, prev, rfl, VisPost.id_of_same hsame, ?_⟩
      intro h0
      exact absurd (hcc.symm.trans h0) hc0

theorem length_cells_eq (f : playField) (hwf : wellFormed f) :
    f.Cells.length = f.Height.toNat * f.Width.toNat := by
  obtain ⟨hW, hH, hlen⟩ := hwf
  have h1 : (f.Cells.length : Int) = (f.Height.toNat : Int) * (f.Width.toNat : Int) := by
    rw [hlen, Int.toNat_of_nonneg hH.le, Int.toNat_of_nonneg hW.le]
    ring
  exact_mod_cast h1

theorem allPositions_length (f : playField) :
    (allPositions f).length = f.Height.toNat * f.Width.toNat := by
  unfold allPositions
  rw [List.length_flatten, List.map_map]
  have : (List.length ∘ fun (h : Nat) =>
      (List.range f.Width.toNat).map (fun (w : Nat) => playCellPos.mk w h)) =
      fun _ => f.Width.toNat := by
    funext h
    simp
  rw [this, List.map_const', List.sum_const_nat, List.length_range]

theorem countFree_le_total (f : playField) (hwf : wellFormed f)
    (prev : List playCellPos) : countFree f prev ≤ f.Cells.length := by
  unfold countFree
  calc ((allPositions f).filter (fun p => decide (p ∉ prev))).length
      ≤ (allPositions f).length := List.length_filter_le _ _
    _ = f.Height.toNat * f.Width.toNat := allPositions_length f
    _ = f.Cells.length := (length_cells_eq f hwf).symm

/-- Completeness of the traversal: at top level (empty visited set), every
    zero-count region cell ends up with all its in-bounds non-mine
    orthogonal neighbors visible and visited. -/
theorem region_nbrsRevealed (f : playField) (sx sy : Int)
    {f' : playField} {prev' : List playCellPos}
    (hpost : VisPost f sx sy f [] f' prev')
    (hb : countAt f sx sy = 0 → nbrsRevealed f f' prev' sx sy) :
    ∀ x y, ZeroRegion f sx sy x y → countAt f x y = 0 →
      nbrsRevealed f f' prev' x y := by
  intro x y hreg
  induction hreg with
  | base => exact hb
  | step hr hc0 hnbr hinq hmq hcq ihr =>
    intro _
    obtain ⟨hv, hm⟩ := (ihr hc0) _ _ hnbr hinq hmq
    exact hpost.handled _ hm (List.not_mem_nil _) hcq

/-- C5: on a well-formed grid, from any in-bounds start and the empty
    visited set, the traversal completes within `|Cells| + 1` nested
    levels: the visited set (one insertion per recursive call, only at
    fresh in-bounds positions) bounds the recursion depth, so the
    recursion is finite and no out-of-range access occurs. -/
theorem updateFieldVisibility_terminates (f : playField) (x y : Int)
    (hwf : wellFormed f) (hin : inBoundsPos f x y) :
    ∃ f' prev', updateFieldVisibility (f.Cells.length + 1) f x y [] = .ok f' prev' := by
  have hreg : ZeroRegion f x y x y ∨ countAt f x y ≠ 0 := by
    by_cases h : countAt f x y = 0
    · exact Or.inl ZeroRegion.base
    · exact Or.inr h
  obtain ⟨f', prev', hrun, _, _⟩ :=
    updateFieldVisibility_spec f x y hwf (f.Cells.length + 1) f x y []
      (sameButVis_refl f) hin hreg
      (by have := countFree_le_total f hwf []; omega)
  exact ⟨f', prev', hrun⟩

/-- Witness for C5 at a concrete input. -/
theorem updateFieldVisibility_terminates_witness :
    wellFormed fieldBoom ∧ inBoundsPos fieldBoom 0 0 ∧
    (∃ f' prev',
      updateFieldVisibility (fieldBoom.Cells.length + 1) fieldBoom 0 0 [] =
        .ok f' prev') :=
  ⟨by decide, by decide,
    updateFieldVisibility_terminates fieldBoom 0 0 (by decide) (by decide)⟩

/-- A 1-wide, 3-tall grid: (0,0) has adjacency 0, (0,1) has adjacency 1,
    and (0,2) is the mine.  The zero region of (0,0) is just {(0,0)}. -/
def fieldC4 : playField :=
  { Width := 1, Height := 3, BlackHoleQuantity := 1,
    Cells := [{}, { AdjucentBlackHoleQuantity := 1 }, { IsBlackHole := true }] }

/-- `fieldC4` after the traversal from (0,0): only (0,1) became visible. -/
def fieldC4After : playField :=
  { Width := 1, Height := 3, BlackHoleQuantity := 1,
    Cells := [{}, { IsVisible := true, AdjucentBlackHoleQuantity := 1 },
      { IsBlackHole := true }] }

/-- C4 counterexample: on this valid grid, the start cell (0,0) belongs to
    its own zero-adjacency region, yet `updateFieldVisibility` invoked on
    it completes leaving (0,0) invisible — the traversal reveals
    neighbors only, never the start cell itself (the caller's preceding
    `updateFieldCell` does that), so it does not make visible the
    "entire region plus border" as claimed. -/
theorem updateFieldVisibility_misses_start :
    wellFormed fieldC4 ∧ countAt fieldC4 0 0 = 0 ∧ ZeroRegion fieldC4 0 0 0 0 ∧
    updateFieldVisibility 4 fieldC4 0 0 [] = .ok fieldC4After [⟨0, 1⟩] ∧
    visAt fieldC4After 0 0 = false :=
  ⟨by decide, by decide, ZeroRegion.base, by decide, by decide⟩

/-- C4 (amended): the traversal makes visible exactly the in-bounds
    non-mine orthogonal neighbors of the zero-count region cells — the
    region plus its immediate orthogonal non-mine border, except the
    start cell itself, which is revealed only when it is adjacent to
    another region cell.  Mine cells are never revealed by it, and mark
    flags are untouched (marked cells ARE revealed like any other). -/
theorem updateFieldVisibility_exact (f : playField) (sx sy : Int)
    (hwf : wellFormed f) (hin : inBoundsPos f sx sy)
    (hc0 : countAt f sx sy = 0) :
    ∃ f' prev',
      updateFieldVisibility (f.Cells.length + 1) f sx sy [] = .ok f' prev' ∧
      (∀ qx qy, inBoundsPos f qx qy →
        (visAt f' qx qy = true ↔
          (visAt f qx qy = true ∨ RevealTarget f sx sy qx qy))) ∧
      (∀ qx qy, inBoundsPos f qx qy → mineAt f qx qy = true →
        visAt f' qx qy = visAt f qx qy) ∧
      (∀ qx qy, markedAt f' qx qy = markedAt f qx qy) := by
  obtain ⟨f', prev', hrun, hpost, hb⟩ :=
    updateFieldVisibility_spec f sx sy hwf (f.Cells.length + 1) f sx sy []
      (sameButVis_refl f) hin (Or.inl ZeroRegion.base)
      (by have := countFree_le_total f hwf []; omega)
  have hcompl := region_nbrsRevealed f sx sy hpost hb
  refine ⟨f', prev', hrun, ?_, ?_, ?_⟩
  · intro qx qy hinq
    constructor
    · intro hv
      exact hpost.sound qx qy hinq hv
    · intro h
      rcases h with hv | hRT
      · exact hpost.visMono qx qy hv
      · obtain ⟨rx, ry, hreg, hrc, hnbr, hinq', hmq⟩ := hRT
        exact ((hcompl rx ry hreg hrc) qx qy hnbr hinq' hmq).1
  · intro qx qy hinq hmq
    cases hv : visAt f qx qy with
    | true =>
      rw [hpost.visMono qx qy hv]
    | false =>
      cases hv' : visAt f' qx qy with
      | false => rfl
      | true =>
        rcases hpost.sound qx qy hinq hv' with h | h
        · rw [hv] at h
          cases h
        · obtain ⟨_, _, _, _, _, _, hm'⟩ := h
          rw [hmq] at hm'
          cases hm'
  · intro qx qy
    exact markedAt_congr hpost.same qx qy

/-- Witness for the amended C4 at a concrete input. -/
theorem updateFieldVisibility_exact_witness :
    wellFormed fieldC4 ∧ inBoundsPos fieldC4 0 0 ∧ countAt fieldC4 0 0 = 0 ∧
    (∃ f' prev',
      updateFieldVisibility (fieldC4.Cells.length + 1) fieldC4 0 0 [] = .ok f' prev' ∧
      (∀ qx qy, inBoundsPos fieldC4 qx qy →
        (visAt f' qx qy = true ↔
          (visAt fieldC4 qx qy = true ∨ RevealTarget fieldC4 0 0 qx qy))) ∧
      (∀ qx qy, inBoundsPos fieldC4 qx qy → mineAt fieldC4 qx qy = true →
        visAt f' qx qy = visAt fieldC4 qx qy) ∧
      (∀ qx qy, markedAt f' qx qy = markedAt fieldC4 qx qy)) :=
  ⟨by decide, by decide, by decide,
    updateFieldVisibility_exact fieldC4 0 0 (by decide) (by decide) (by decide)⟩

end Game
